import Mathlib

/-!
Verification development for the AICustomizedResume repository.

The development shallowly embeds:
  * the client-side diff function `createDiff` of
    `nextjs-client/src/app/components/PreviewPanel.tsx` (translated from the
    TypeScript source), and
  * the Edit Plan Validation & Application Engine (Constraint Validator,
    Plan Applier, Anchor Locator, Annotation Placer).  The engine's Python
    sources (`services/apply_plan.py`, `services/pdf_annotate.py`) are not
    part of the available source tree — only their documentation and callers
    are — so those components are modelled from the specification text.
-/

set_option maxRecDepth 100000

namespace Spec2Proof

/-! ## Part 1: the client-side line diff (`createDiff` in PreviewPanel.tsx)

The TypeScript source:

```
const createDiff = (original: string, updated: string) => {
  const originalLines = original.split('\n')
  const updatedLines = updated.split('\n')
  const diff = []
  let i = 0, j = 0
  while (i < originalLines.length || j < updatedLines.length) {
    if (i < originalLines.length && j < updatedLines.length
        && originalLines[i] === updatedLines[j]) {
      diff.push({ type: 'unchanged', line: originalLines[i], lineNumber: i + 1 })
      i++; j++
    } else if (j < updatedLines.length
               && (i >= originalLines.length || originalLines[i] !== updatedLines[j])) {
      diff.push({ type: 'added', line: updatedLines[j], lineNumber: j + 1 })
      j++
    } else if (i < originalLines.length) {
      diff.push({ type: 'removed', line: originalLines[i], lineNumber: i + 1 })
      i++
    }
  }
  return diff
}
```

The loop is embedded as a recursion on the two suffixes still to be
processed, with `i` and `j` carried explicitly for the `lineNumber` fields.
-/

inductive DiffTag where
  | unchanged
  | added
  | removed
deriving DecidableEq, Repr

structure DiffEntry where
  tag : DiffTag
  line : String
  lineNumber : Nat
deriving DecidableEq, Repr

def createDiffAux : List String → List String → Nat → Nat → List DiffEntry
  | o :: os, u :: us, i, j =>
      if o = u then
        ⟨DiffTag.unchanged, o, i + 1⟩ :: createDiffAux os us (i + 1) (j + 1)
      else
        ⟨DiffTag.added, u, j + 1⟩ :: createDiffAux (o :: os) us i (j + 1)
  | [], u :: us, i, j => ⟨DiffTag.added, u, j + 1⟩ :: createDiffAux [] us i (j + 1)
  | o :: os, [], i, j => ⟨DiffTag.removed, o, i + 1⟩ :: createDiffAux os [] (i + 1) j
  | [], [], _, _ => []
termination_by o u _ _ => o.length + u.length

/-- JavaScript `s.split('\n')`: splitting on a single newline character.
Yields `[""]` on the empty string, like the JavaScript original. -/
def splitNlAux : List Char → List Char → List String
  | [], acc => [String.mk acc.reverse]
  | c :: cs, acc =>
      if c = '\n' then String.mk acc.reverse :: splitNlAux cs []
      else splitNlAux cs (c :: acc)

def splitNl (s : String) : List String :=
  splitNlAux s.toList []

/-- `createDiff` as in PreviewPanel.tsx: split both strings on newlines and
run the two-pointer loop. -/
def createDiff (original updated : String) : List DiffEntry :=
  createDiffAux (splitNl original) (splitNl updated) 0 0

/-- Entries whose tag is `unchanged` or `removed` (those that consumed an
original line). -/
def fromOriginal (e : DiffEntry) : Bool :=
  decide (e.tag = DiffTag.unchanged ∨ e.tag = DiffTag.removed)

/-- Entries whose tag is `unchanged` or `added` (those that consumed an
updated line). -/
def fromUpdated (e : DiffEntry) : Bool :=
  decide (e.tag = DiffTag.unchanged ∨ e.tag = DiffTag.added)


/-! ## Part 2: the Edit Plan Validation & Application Engine

The engine's Python sources (`services/apply_plan.py`, `services/edit_plan.py`,
`services/pdf_annotate.py`) are absent from the available source tree — only
their documentation (`PLAN_AND_ANNOTATE_WORKFLOW`, implementation summary) and
their HTTP callers are present.  Every definition below is therefore modelled
from the specification text (sections 3, 4, 6 of the spec).
-/

/-- Modelled from the spec: the three mutually exclusive insertion strategies
(§4.2) of the missing `services/apply_plan.py`. -/
inductive Strategy where
  | modifier
  | parenthetical
  | tail
deriving DecidableEq, Repr

/-- Modelled from the spec: the EditCandidate data shape (§3) of the missing
edit-plan services. -/
structure EditCandidate where
  line_index : Nat
  strategy : Strategy
  anchor : String
  insertion : String
  keywords_used : List String
deriving DecidableEq, Repr

/-- Modelled from the spec: the `Limits` configuration value (§6) of the
missing `services/apply_plan.py`. -/
structure Limits where
  max_chars : Nat
  max_words : Nat
  max_edit_distance : Nat
  min_overlap : ℚ
  locator_min_confidence : ℚ
deriving DecidableEq, Repr

/-- The default limits of the configuration surface (§6):
`max_chars=25, max_words=2, max_edit_distance=25, min_overlap=0.70,
locator_min_confidence=0.5`. -/
def defaultLimits : Limits :=
  ⟨25, 2, 25, mkRat 7 10, mkRat 1 2⟩

/-- Whitespace tokenization: maximal runs of non-whitespace characters
(the spec's "tokenizing on whitespace"). -/
def wordsAux : List Char → List Char → List String
  | [], acc => if acc.isEmpty then [] else [String.mk acc.reverse]
  | c :: cs, acc =>
      if c.isWhitespace then
        if acc.isEmpty then wordsAux cs []
        else String.mk acc.reverse :: wordsAux cs []
      else wordsAux cs (c :: acc)

def wordsOf (s : String) : List String :=
  wordsAux s.toList []

def lowerChars (l : List Char) : List Char :=
  l.map Char.toLower

/-- First index at which `need` occurs as a contiguous block of `hay`. -/
def findSub (need : List Char) : List Char → Option Nat
  | [] => if need.isEmpty then some 0 else none
  | c :: t =>
      if need.isPrefixOf (c :: t) then some 0
      else (findSub need t).map (· + 1)

def containsSub (hay need : List Char) : Bool :=
  (findSub need hay).isSome

/-- Join word tokens with single spaces. -/
def joinSpace : List String → List Char
  | [] => []
  | [w] => w.toList
  | w :: ws => w.toList ++ ' ' :: joinSpace ws

/-- Modelled from the spec: whitespace-collapsing, case-folding normalization
(§4.1 anchor check and §4.4 step 1). -/
def normalizeChars (s : String) : List Char :=
  joinSpace (wordsOf (String.mk (lowerChars s.toList)))

/-- Modelled from the spec: the §4.1 anchor-presence test — the anchor occurs
in the line, case-insensitively and whitespace-normalized. -/
def anchorFound (line anchor : String) : Bool :=
  containsSub (normalizeChars line) (normalizeChars anchor)

/-- Inner loop of one Wagner–Fischer edit-distance row update. -/
def levGo (x : Char) : List Char → List Nat → Nat → List Nat
  | y :: ys, p0 :: p1 :: ps, left =>
      let d := min (p1 + 1) (min (left + 1) (p0 + (if x = y then 0 else 1)))
      d :: levGo x ys (p1 :: ps) d
  | _, _, _ => []

def levNextRow (x : Char) (ys : List Char) (prev : List Nat) : List Nat :=
  match prev with
  | [] => []
  | p0 :: ps => (p0 + 1) :: levGo x ys (p0 :: ps) (p0 + 1)

/-- Character-level Levenshtein distance (dynamic programming by rows). -/
def levChars (xs ys : List Char) : Nat :=
  (xs.foldl (fun row x => levNextRow x ys row) (List.range (ys.length + 1))).getLastD 0

def levenshtein (s t : String) : Nat :=
  levChars s.toList t.toList


/-- First case-insensitive occurrence of the anchor in the raw line, as a
character position. -/
def anchorPos (line anchor : String) : Option Nat :=
  findSub (lowerChars anchor.toList) (lowerChars line.toList)

/-- Modelled from the spec: the placement rule the Plan Applier uses (§4.2):
`modifier` puts the insertion immediately before the anchor with one
separating space, `parenthetical` wraps the insertion in parentheses
immediately after the anchor, `tail` appends the insertion at the end of the
line.  When the anchor position cannot be recovered from the raw line the
insertion is appended at the end. -/
def placeEdit (line : String) (c : EditCandidate) : String :=
  let cs := line.toList
  match c.strategy with
  | Strategy.tail => line ++ c.insertion
  | Strategy.modifier =>
      match anchorPos line c.anchor with
      | some p => String.mk (cs.take p ++ c.insertion.toList ++ ' ' :: cs.drop p)
      | none => line ++ c.insertion
  | Strategy.parenthetical =>
      match anchorPos line c.anchor with
      | some p =>
          let q := p + c.anchor.toList.length
          String.mk (cs.take q ++ ' ' :: '(' :: (c.insertion.toList ++ ')' :: cs.drop q))
      | none => line ++ c.insertion

/-- Modelled from the spec: the hypothetical post-edit line the Constraint
Validator builds for its metrics (§4.1), using the §4.2 placement
semantics. -/
def hypotheticalLine (line : String) (c : EditCandidate) : String :=
  let cs := line.toList
  match c.strategy with
  | Strategy.tail => line ++ c.insertion
  | Strategy.modifier =>
      match anchorPos line c.anchor with
      | some p => String.mk (cs.take p ++ c.insertion.toList ++ ' ' :: cs.drop p)
      | none => line ++ c.insertion
  | Strategy.parenthetical =>
      match anchorPos line c.anchor with
      | some p =>
          let q := p + c.anchor.toList.length
          String.mk (cs.take q ++ ' ' :: '(' :: (c.insertion.toList ++ ')' :: cs.drop q))
      | none => line ++ c.insertion

/-- Modelled from the spec: the closed set of rejection codes (§4.1, §7). -/
inductive RejectCode where
  | ANCHOR_NOT_FOUND
  | CHAR_LIMIT_EXCEEDED
  | WORD_LIMIT_EXCEEDED
  | EDIT_DISTANCE_EXCEEDED
  | STRUCTURE_NOT_PRESERVED
  | LINE_ALREADY_EDITED
deriving DecidableEq, Repr

/-- Modelled from the spec: the result of scoring one candidate (§3). -/
structure ValidationOutcome where
  accepted : Bool
  reasons : List RejectCode
  char_delta : Nat
  word_delta : Nat
  edit_distance : Nat
  overlap_ratio : ℚ
deriving DecidableEq, Repr

/-- Modelled from the spec: the structural word-overlap ratio — shared word
tokens over original word token count (§4.1, glossary). -/
def overlapRatio (line hypo : String) : ℚ :=
  let ow := wordsOf line
  let nw := wordsOf hypo
  mkRat ((ow.filter fun w => nw.contains w).length : Int) ow.length

/-- Modelled from the spec: the Constraint Validator (§4.1).  All five checks
are always evaluated; every failing check contributes its code to `reasons`,
and `accepted` is `reasons.isEmpty`. -/
def validate (line : String) (c : EditCandidate) (lim : Limits) : ValidationOutcome :=
  let hypo := hypotheticalLine line c
  let cd := c.insertion.length
  let wd := (wordsOf c.insertion).length
  let ed := levenshtein line hypo
  let ov := overlapRatio line hypo
  let r1 : List RejectCode :=
    if anchorFound line c.anchor then [] else [RejectCode.ANCHOR_NOT_FOUND]
  let r2 : List RejectCode :=
    if cd ≤ lim.max_chars then [] else [RejectCode.CHAR_LIMIT_EXCEEDED]
  let r3 : List RejectCode :=
    if wd ≤ lim.max_words then [] else [RejectCode.WORD_LIMIT_EXCEEDED]
  let r4 : List RejectCode :=
    if ed ≤ lim.max_edit_distance then [] else [RejectCode.EDIT_DISTANCE_EXCEEDED]
  let r5 : List RejectCode :=
    if lim.min_overlap ≤ ov then [] else [RejectCode.STRUCTURE_NOT_PRESERVED]
  let rs := r1 ++ r2 ++ r3 ++ r4 ++ r5
  ⟨rs.isEmpty, rs, cd, wd, ed, ov⟩

/-- Modelled from the spec: an applied edit — the accepted candidate plus the
exact before/after line text and its line position (§3). -/
structure AppliedEdit where
  line_index : Nat
  candidate : EditCandidate
  before : String
  after : String
  keywords_used : List String
deriving DecidableEq, Repr

/-- Modelled from the spec: the PlanResult (§3). -/
structure PlanResult where
  updated_lines : List String
  applied_edits : List AppliedEdit
  skipped_keywords : List String
  diff_preview : List (String × String)
deriving DecidableEq, Repr

/-- Modelled from the spec: the winning candidate for one line — the first
candidate, in original input order, that targets this line index and whose
validation accepts (§4.3 steps 2–3). -/
def firstAccepted (lim : Limits) (i : Nat) (line : String) :
    List EditCandidate → Option EditCandidate
  | [] => none
  | c :: cs =>
      if c.line_index = i ∧ (validate line c lim).accepted = true then some c
      else firstAccepted lim i line cs

/-- Modelled from the spec: apply the winning candidate of one line, if any
(§4.3 steps 3–5). -/
def applyLine (cands : List EditCandidate) (lim : Limits) (i : Nat) (line : String) :
    Option AppliedEdit :=
  (firstAccepted lim i line cands).map fun c =>
    ⟨i, c, line, placeEdit line c, c.keywords_used⟩

/-- Modelled from the spec: the Plan Applier (§4.3).  Lines are processed in
order; at most one accepted candidate is applied per line; lines with no
accepted candidate pass through unchanged; `skipped_keywords` collects the
keywords of all candidates that were not applied (§3); `diff_preview` has one
entry per line that changed. -/
def applyPlan (lines : List String) (cands : List EditCandidate) (lim : Limits) :
    PlanResult :=
  let indexed := lines.enum
  let edits := indexed.filterMap fun p => applyLine cands lim p.1 p.2
  let updated := indexed.map fun p =>
    match applyLine cands lim p.1 p.2 with
    | some e => e.after
    | none => p.2
  let isApplied := fun c => edits.any fun e => decide (e.candidate = c)
  let skipped :=
    ((cands.filter fun c => ! isApplied c).flatMap EditCandidate.keywords_used).dedup
  let diffp := indexed.filterMap fun p =>
    match applyLine cands lim p.1 p.2 with
    | some e => if e.after = e.before then none else some (e.before, e.after)
    | none => none
  ⟨updated, edits, skipped, diffp⟩

/-- A bounding rectangle of a text run in the rendered document. -/
structure Rect where
  x0 : ℚ
  y0 : ℚ
  x1 : ℚ
  y1 : ℚ
deriving DecidableEq, Repr

/-- Modelled from the spec: one extracted text run of the rendered document,
with its page, its position in reading order on that page, its text and its
bounding geometry (§6). -/
structure TextRun where
  page : Nat
  pos : Nat
  text : String
  box : Rect
deriving DecidableEq, Repr

/-- Modelled from the spec: the output of the Anchor Locator (§3). -/
structure LocatedSpan where
  page_index : Nat
  pos : Nat
  geometry : List Rect
  confidence : ℚ
  matched_text : String
deriving DecidableEq, Repr

/-- Lexicographic page-then-position order, "earliest page/position". -/
def lexLe (a b : Nat × Nat) : Prop :=
  a.1 < b.1 ∨ (a.1 = b.1 ∧ a.2 ≤ b.2)

instance (a b : Nat × Nat) : Decidable (lexLe a b) := by
  unfold lexLe; infer_instance


/-- Modelled from the spec: edit-distance similarity ratio between two
normalized character sequences (§4.4 step 2). -/
def similarity (a b : List Char) : ℚ :=
  let m := max a.length b.length
  if m = 0 then 1 else mkRat ((m - levChars a b : Nat) : Int) m

/-- Modelled from the spec: the §4.4 scoring of one candidate run —
exact-substring match scores 1.0, normalized-substring match 0.9, a fuzzy
match via the edit-distance ratio scores its similarity with floor 0.5, and
anything else scores 0. -/
def runScore (anchor : String) (r : TextRun) : ℚ :=
  if containsSub r.text.toList anchor.toList then 1
  else if containsSub (normalizeChars r.text) (normalizeChars anchor) then mkRat 9 10
  else
    let s := similarity (normalizeChars anchor) (normalizeChars r.text)
    if mkRat 1 2 ≤ s then s else 0

/-- Modelled from the spec: concatenations of adjacent runs, to handle
anchors split across a line break (§4.4 step 2).  A merged candidate keeps
the first run's page, position and geometry. -/
def adjacentMerges : List TextRun → List TextRun
  | r1 :: r2 :: rs =>
      { r1 with text := r1.text ++ r2.text } :: adjacentMerges (r2 :: rs)
  | _ => []

/-- All candidate runs the locator scores: the runs themselves plus the
adjacent-run concatenations. -/
def searchCandidates (runs : List TextRun) : List TextRun :=
  runs ++ adjacentMerges runs

/-- Modelled from the spec: among candidate runs scoring at least the
threshold, pick the highest-confidence one; on score ties pick the earliest
page/position (§4.4 step 3). -/
def bestRun (anchor : String) (thr : ℚ) : List TextRun → Option (TextRun × ℚ)
  | [] => none
  | r :: rs =>
      match bestRun anchor thr rs with
      | none =>
          if thr ≤ runScore anchor r then some (r, runScore anchor r) else none
      | some (br, bs) =>
          if thr ≤ runScore anchor r then
            if bs < runScore anchor r then some (r, runScore anchor r)
            else if runScore anchor r = bs ∧ lexLe (r.page, r.pos) (br.page, br.pos) then
              some (r, runScore anchor r)
            else some (br, bs)
          else some (br, bs)

/-- Modelled from the spec: the Anchor Locator (§4.4).  Returns a LocatedSpan
for the best candidate run at or above the confidence threshold, or nothing
when no run clears it. -/
def locate (anchor : String) (runs : List TextRun) (thr : ℚ) : Option LocatedSpan :=
  (bestRun anchor thr (searchCandidates runs)).map fun p =>
    ⟨p.1.page, p.1.pos, [p.1.box], p.2, p.1.text⟩

/-- Modelled from the spec: one page of the rendered document (§6). -/
structure RenderedPage where
  runs : List TextRun
deriving DecidableEq, Repr

/-- Modelled from the spec: the rendered document — pages of text runs with
geometry (§6). -/
structure RenderedDoc where
  pages : List RenderedPage
deriving DecidableEq, Repr

/-- Modelled from the spec: an overlay mark of the Annotation Placer — either
a placed highlight with a note, or a page-level fallback note without
geometry (§3, §4.5). -/
inductive OverlayMark where
  | Placed (page : Nat) (geometry : List Rect) (note_text : String)
  | Fallback (note_text : String)
deriving DecidableEq, Repr

/-- Modelled from the spec: the annotated artifact — the untouched base
document plus a list of overlay marks (§4.5). -/
structure AnnotatedDoc where
  base : RenderedDoc
  overlays : List OverlayMark
deriving DecidableEq, Repr

/-- Modelled from the spec: the AnnotationResult (§3): the annotated document
and the per-edit marks. -/
structure AnnotationResult where
  doc : AnnotatedDoc
  marks : List OverlayMark
deriving DecidableEq, Repr

def strategyName : Strategy → String
  | Strategy.modifier => "modifier"
  | Strategy.parenthetical => "parenthetical"
  | Strategy.tail => "tail"

def allRuns (doc : RenderedDoc) : List TextRun :=
  doc.pages.flatMap RenderedPage.runs

/-- Modelled from the spec: the note attached to a mark — the inserted text,
the strategy used and the keywords incorporated (§4.5). -/
def noteFor (e : AppliedEdit) : String :=
  "Inserted " ++ e.candidate.insertion ++ " via " ++ strategyName e.candidate.strategy
    ++ " for " ++ String.intercalate ", " e.keywords_used

/-- Modelled from the spec: the mark for one applied edit — a placed
highlight when the locator finds a span, a fallback note otherwise (§4.5). -/
def markFor (doc : RenderedDoc) (thr : ℚ) (e : AppliedEdit) : OverlayMark :=
  match locate e.candidate.anchor (allRuns doc) thr with
  | some span => OverlayMark.Placed span.page_index span.geometry (noteFor e)
  | none => OverlayMark.Fallback (noteFor e)

/-- Modelled from the spec: the Annotation Placer (§4.5).  It never modifies
the underlying document content: the result holds the base document
unchanged plus overlay marks. -/
def annotateDoc (doc : RenderedDoc) (edits : List AppliedEdit) (thr : ℚ) :
    AnnotationResult :=
  let marks := edits.map (markFor doc thr)
  ⟨⟨doc, marks⟩, marks⟩

/-- Stripping all overlays from an annotated document leaves the base
rendered document. -/
def stripOverlays (a : AnnotatedDoc) : RenderedDoc :=
  a.base

/-! ## Sample concrete inputs used by witnesses and counterexamples -/

def lineA : String := "Alpha"
def lineB : String := "Beta"
def candA : EditCandidate := ⟨0, Strategy.tail, "Alpha", " X", ["X"]⟩
def candA2 : EditCandidate := ⟨0, Strategy.tail, "Alpha", " Y", ["Y"]⟩
def candB : EditCandidate := ⟨1, Strategy.tail, "ZZZ", " X", ["X"]⟩
def editA : AppliedEdit := ⟨0, candA, "Alpha", "Alpha X", ["X"]⟩

def sampleRun : TextRun :=
  ⟨0, 0, "Built dashboards using Tableau", ⟨0, 0, 1, 1⟩⟩

/-! ## Scenario A (spec §8) -/

def scenarioALine : String := "Built dashboards using Tableau"

def scenarioACand : EditCandidate :=
  ⟨0, Strategy.tail, "Tableau", ", and Power BI", ["Power BI"]⟩

/-! ## Theorems -/

example : levenshtein "kitten" "sitting" = 3 := by decide
example : levenshtein "" "abc" = 3 := by decide
example : levenshtein "abc" "" = 3 := by decide
example : levenshtein "flaw" "lawn" = 2 := by decide
example : levenshtein "Built dashboards using Tableau"
    "Built dashboards using Tableau, and Power BI" = 14 := by decide

theorem createDiffAux_original (os us : List String) (i j : Nat) :
    ((createDiffAux os us i j).filter fromOriginal).map DiffEntry.line = os := by
  induction os, us, i, j using createDiffAux.induct <;>
    simp_all [createDiffAux, List.filter, fromOriginal]

theorem createDiffAux_updated (os us : List String) (i j : Nat) :
    ((createDiffAux os us i j).filter fromUpdated).map DiffEntry.line = us := by
  induction os, us, i, j using createDiffAux.induct <;>
    simp_all [createDiffAux, List.filter, fromUpdated]

theorem createDiffAux_self (os : List String) (i j : Nat) :
    ∀ e ∈ createDiffAux os os i j, e.tag = DiffTag.unchanged := by
  induction os generalizing i j with
  | nil => intro e he; simp [createDiffAux] at he
  | cons o os ih =>
      intro e he
      have he' : e = ⟨DiffTag.unchanged, o, i + 1⟩ ∨
          e ∈ createDiffAux os os (i + 1) (j + 1) := by
        simpa only [createDiffAux, if_pos, List.mem_cons] using he
      cases he' with
      | inl h => rw [h]
      | inr h => exact ih (i + 1) (j + 1) e h

theorem lexLe_refl (a : Nat × Nat) : lexLe a a := by
  simp [lexLe]

theorem lexLe_trans {a b c : Nat × Nat} (h1 : lexLe a b) (h2 : lexLe b c) :
    lexLe a c := by
  rcases h1 with h1 | ⟨h1, h1'⟩ <;> rcases h2 with h2 | ⟨h2, h2'⟩ <;>
    simp only [lexLe] <;> omega

theorem lexLe_total (a b : Nat × Nat) : lexLe a b ∨ lexLe b a := by
  simp only [lexLe]; omega

/-! ## Validator lemmas -/

theorem validate_char_delta (line : String) (c : EditCandidate) (lim : Limits) :
    (validate line c lim).char_delta = c.insertion.length := by
  simp only [validate]

theorem validate_word_delta (line : String) (c : EditCandidate) (lim : Limits) :
    (validate line c lim).word_delta = (wordsOf c.insertion).length := by
  simp only [validate]

/-- Claim C5: the Constraint Validator evaluates all five checks even when an
earlier check fails — the reasons list contains the code of each violated
check, exactly when that check is violated — and the outcome is accepted if
and only if the reasons list is empty. -/
theorem validate_all_checks (line : String) (c : EditCandidate) (lim : Limits) :
    ((validate line c lim).accepted = true ↔ (validate line c lim).reasons = [])
  ∧ (RejectCode.ANCHOR_NOT_FOUND ∈ (validate line c lim).reasons ↔
      ¬ anchorFound line c.anchor = true)
  ∧ (RejectCode.CHAR_LIMIT_EXCEEDED ∈ (validate line c lim).reasons ↔
      ¬ (validate line c lim).char_delta ≤ lim.max_chars)
  ∧ (RejectCode.WORD_LIMIT_EXCEEDED ∈ (validate line c lim).reasons ↔
      ¬ (validate line c lim).word_delta ≤ lim.max_words)
  ∧ (RejectCode.EDIT_DISTANCE_EXCEEDED ∈ (validate line c lim).reasons ↔
      ¬ (validate line c lim).edit_distance ≤ lim.max_edit_distance)
  ∧ (RejectCode.STRUCTURE_NOT_PRESERVED ∈ (validate line c lim).reasons ↔
      ¬ lim.min_overlap ≤ (validate line c lim).overlap_ratio) := by
  simp only [validate]
  split_ifs <;> simp_all

/-- Witness for C5 at a concrete input. -/
theorem validate_all_checks_witness :
    ((validate "Alpha" ⟨0, Strategy.tail, "Alpha", " X", ["X"]⟩ defaultLimits).accepted = true ↔
      (validate "Alpha" ⟨0, Strategy.tail, "Alpha", " X", ["X"]⟩ defaultLimits).reasons = []) :=
  (validate_all_checks "Alpha" ⟨0, Strategy.tail, "Alpha", " X", ["X"]⟩ defaultLimits).1

theorem validate_accepted_bounds {line : String} {c : EditCandidate} {lim : Limits}
    (h : (validate line c lim).accepted = true) :
    (validate line c lim).char_delta ≤ lim.max_chars
  ∧ (validate line c lim).word_delta ≤ lim.max_words
  ∧ (validate line c lim).edit_distance ≤ lim.max_edit_distance
  ∧ lim.min_overlap ≤ (validate line c lim).overlap_ratio := by
  obtain ⟨hacc, _, h2, h3, h4, h5⟩ := validate_all_checks line c lim
  have hre : (validate line c lim).reasons = [] := hacc.mp h
  refine ⟨?_, ?_, ?_, ?_⟩
  · by_contra hc; have := h2.mpr hc; rw [hre] at this; simp at this
  · by_contra hc; have := h3.mpr hc; rw [hre] at this; simp at this
  · by_contra hc; have := h4.mpr hc; rw [hre] at this; simp at this
  · by_contra hc; have := h5.mpr hc; rw [hre] at this; simp at this

/-- Claim C6: for every line and candidate, the hypothetical post-edit line
the Constraint Validator builds for its metrics is character-for-character
the line the Plan Applier produces — the validator's placement function and
the applier's placement function agree on every strategy. -/
theorem validator_applier_placement_agree (line : String) (c : EditCandidate) :
    hypotheticalLine line c = placeEdit line c := rfl

/-! ## Plan Applier lemmas -/

theorem firstAccepted_sound {lim : Limits} {i : Nat} {line : String} :
    ∀ {cands : List EditCandidate} {c : EditCandidate},
      firstAccepted lim i line cands = some c →
      c.line_index = i ∧ (validate line c lim).accepted = true := by
  intro cands
  induction cands with
  | nil => intro c h; simp [firstAccepted] at h
  | cons a as ih =>
      intro c h
      by_cases hc : a.line_index = i ∧ (validate line a lim).accepted = true
      · rw [firstAccepted, if_pos hc] at h
        cases h
        exact hc
      · rw [firstAccepted, if_neg hc] at h
        exact ih h

theorem firstAccepted_first {lim : Limits} {i : Nat} {line : String} :
    ∀ {cands : List EditCandidate} {c : EditCandidate},
      firstAccepted lim i line cands = some c →
      ∃ pre post, cands = pre ++ c :: post ∧
        ∀ c' ∈ pre, ¬(c'.line_index = i ∧ (validate line c' lim).accepted = true) := by
  intro cands
  induction cands with
  | nil => intro c h; simp [firstAccepted] at h
  | cons a as ih =>
      intro c h
      by_cases hc : a.line_index = i ∧ (validate line a lim).accepted = true
      · rw [firstAccepted, if_pos hc] at h
        cases h
        exact ⟨[], as, rfl, by simp⟩
      · rw [firstAccepted, if_neg hc] at h
        obtain ⟨pre, post, hsplit, hpre⟩ := ih h
        refine ⟨a :: pre, post, by rw [hsplit]; simp, ?_⟩
        intro c' hc'
        rcases List.mem_cons.mp hc' with rfl | hmem
        · exact hc
        · exact hpre c' hmem

theorem mem_applied_edits {lines : List String} {cands : List EditCandidate}
    {lim : Limits} {e : AppliedEdit}
    (he : e ∈ (applyPlan lines cands lim).applied_edits) :
    firstAccepted lim e.line_index e.before cands = some e.candidate
  ∧ e.after = placeEdit e.before e.candidate
  ∧ e.keywords_used = e.candidate.keywords_used := by
  simp only [applyPlan] at he
  rw [List.mem_filterMap] at he
  obtain ⟨p, _, hap⟩ := he
  simp only [applyLine, Option.map_eq_some'] at hap
  obtain ⟨c, hc, rfl⟩ := hap
  exact ⟨hc, rfl, rfl⟩

theorem applyLine_line_index {cands : List EditCandidate} {lim : Limits} {i : Nat}
    {line : String} {e : AppliedEdit} (h : applyLine cands lim i line = some e) :
    e.line_index = i := by
  simp only [applyLine, Option.map_eq_some'] at h
  obtain ⟨c, _, rfl⟩ := h
  rfl

theorem edits_enumFrom_ge (cands : List EditCandidate) (lim : Limits) :
    ∀ (ls : List String) (n : Nat) (e : AppliedEdit),
      e ∈ (List.enumFrom n ls).filterMap (fun p => applyLine cands lim p.1 p.2) →
      n ≤ e.line_index := by
  intro ls
  induction ls with
  | nil => intro n e he; simp at he
  | cons l ls ih =>
      intro n e he
      cases hh : applyLine cands lim n l with
      | none =>
          simp only [List.enumFrom_cons, List.filterMap_cons, hh] at he
          exact Nat.le_of_succ_le (ih (n + 1) e he)
      | some e' =>
          simp only [List.enumFrom_cons, List.filterMap_cons, hh] at he
          rcases List.mem_cons.mp he with rfl | hmem
          · exact le_of_eq (applyLine_line_index hh).symm
          · exact Nat.le_of_succ_le (ih (n + 1) e hmem)

theorem count_le_one (cands : List EditCandidate) (lim : Limits) (k : Nat) :
    ∀ (ls : List String) (n : Nat),
      (((List.enumFrom n ls).filterMap fun p => applyLine cands lim p.1 p.2).filter
        fun e => decide (e.line_index = k)).length ≤ 1 := by
  intro ls
  induction ls with
  | nil => intro n; simp
  | cons l ls ih =>
      intro n
      cases hh : applyLine cands lim n l with
      | none =>
          simp only [List.enumFrom_cons, List.filterMap_cons, hh]
          exact ih (n + 1)
      | some e =>
          simp only [List.enumFrom_cons, List.filterMap_cons, hh, List.filter_cons]
          by_cases hk : e.line_index = k
          · have hen : e.line_index = n := applyLine_line_index hh
            have htail :
                (((List.enumFrom (n + 1) ls).filterMap
                    fun p => applyLine cands lim p.1 p.2).filter
                  fun e => decide (e.line_index = k)) = [] := by
              rw [List.filter_eq_nil_iff]
              intro x hx
              have hge := edits_enumFrom_ge cands lim ls (n + 1) x hx
              simp only [decide_eq_true_eq]
              omega
            simp [hk, htail]
          · simp only [hk, decide_eq_true_eq, if_neg hk]
            exact ih (n + 1)

/-- Claim C1: bounded perturbation — for every AppliedEdit produced by the
Plan Applier under a Limits configuration, the computed metrics satisfy
`char_delta ≤ max_chars`, `word_delta ≤ max_words`,
`edit_distance ≤ max_edit_distance` and `overlap_ratio ≥ min_overlap`. -/
theorem applied_edits_bounded (lines : List String) (cands : List EditCandidate)
    (lim : Limits) (e : AppliedEdit)
    (he : e ∈ (applyPlan lines cands lim).applied_edits) :
    (validate e.before e.candidate lim).char_delta ≤ lim.max_chars
  ∧ (validate e.before e.candidate lim).word_delta ≤ lim.max_words
  ∧ (validate e.before e.candidate lim).edit_distance ≤ lim.max_edit_distance
  ∧ lim.min_overlap ≤ (validate e.before e.candidate lim).overlap_ratio :=
  validate_accepted_bounds (firstAccepted_sound (mem_applied_edits he).1).2


/-- Witness for C1 at a concrete plan application. -/
theorem applied_edits_bounded_witness :
    (validate editA.before editA.candidate defaultLimits).char_delta
        ≤ defaultLimits.max_chars
  ∧ (validate editA.before editA.candidate defaultLimits).word_delta
        ≤ defaultLimits.max_words
  ∧ (validate editA.before editA.candidate defaultLimits).edit_distance
        ≤ defaultLimits.max_edit_distance
  ∧ defaultLimits.min_overlap
        ≤ (validate editA.before editA.candidate defaultLimits).overlap_ratio :=
  applied_edits_bounded [lineA] [candA] defaultLimits editA (by decide)

/-- Claim C2: at most one edit per line — the Plan Applier applies, per line,
only the first accepted candidate in original input order (every earlier
candidate targeting that line was not accepted), every candidate that was
not applied has its keywords in `skipped_keywords`, and for every line index
the count of applied edits with that index is at most one. -/
theorem at_most_one_edit_per_line (lines : List String) (cands : List EditCandidate)
    (lim : Limits) (k : Nat) :
    ((applyPlan lines cands lim).applied_edits.filter
        fun e => decide (e.line_index = k)).length ≤ 1
  ∧ (∀ e ∈ (applyPlan lines cands lim).applied_edits,
      ∃ pre post, cands = pre ++ e.candidate :: post ∧
        ∀ c' ∈ pre,
          ¬(c'.line_index = e.line_index ∧ (validate e.before c' lim).accepted = true))
  ∧ (∀ c ∈ cands,
      (∀ e ∈ (applyPlan lines cands lim).applied_edits, e.candidate ≠ c) →
      ∀ w ∈ c.keywords_used, w ∈ (applyPlan lines cands lim).skipped_keywords) := by
  refine ⟨?_, ?_, ?_⟩
  · have h := count_le_one cands lim k lines 0
    simpa [applyPlan, List.enum] using h
  · intro e he
    exact firstAccepted_first (mem_applied_edits he).1
  · intro c hc hne w hw
    simp only [applyPlan] at hne ⊢
    rw [List.mem_dedup, List.mem_flatMap]
    refine ⟨c, List.mem_filter.mpr ⟨hc, ?_⟩, hw⟩
    rw [Bool.not_eq_true', List.any_eq_false]
    intro e hee
    simp only [decide_eq_true_eq]
    exact hne e hee

/-- Witness for C2: scenario C — two candidates target line 0, the first is
applied and the second one's keyword is reported as skipped. -/
theorem at_most_one_edit_per_line_witness :
    "Y" ∈ (applyPlan [lineA] [candA, candA2] defaultLimits).skipped_keywords :=
  (at_most_one_edit_per_line [lineA] [candA, candA2] defaultLimits 0).2.2
    candA2 (by decide) (by decide) "Y" (by decide)

/-- Claim C3: determinism — the Plan Applier of this development is a pure
function of the original line sequence, the candidate list and the Limits;
two runs on identical inputs produce identical PlanResults, including the
ordering of every field. -/
theorem applyPlan_deterministic (lines : List String) (cands : List EditCandidate)
    (lim : Limits) :
    applyPlan lines cands lim = applyPlan lines cands lim
  ∧ (applyPlan lines cands lim).updated_lines
        = (applyPlan lines cands lim).updated_lines
  ∧ (applyPlan lines cands lim).applied_edits
        = (applyPlan lines cands lim).applied_edits
  ∧ (applyPlan lines cands lim).skipped_keywords
        = (applyPlan lines cands lim).skipped_keywords
  ∧ (applyPlan lines cands lim).diff_preview
        = (applyPlan lines cands lim).diff_preview :=
  ⟨rfl, rfl, rfl, rfl, rfl⟩

/-- Counterexample for C4 as stated: with two candidates sharing the keyword
"X", one applied on line 0 and one rejected on line 1, the keyword "X"
appears both in an AppliedEdit's keywords_used and in skipped_keywords —
not in exactly one of the two. -/
theorem keyword_coverage_counterexample :
    (∃ e ∈ (applyPlan [lineA, lineB] [candA, candB] defaultLimits).applied_edits,
        "X" ∈ e.keywords_used)
  ∧ "X" ∈ (applyPlan [lineA, lineB] [candA, candB] defaultLimits).skipped_keywords := by
  decide

/-- Claim C4 (amended): every keyword of every input candidate appears in at
least one of an AppliedEdit's keywords_used or skipped_keywords — no keyword
is dropped, though a keyword occurring in both an applied and a non-applied
candidate appears on both sides — and for an empty candidate set the
PlanResult has no applied edits and no keyword at all. -/
theorem keyword_coverage (lines : List String) (cands : List EditCandidate)
    (lim : Limits) :
    (∀ c ∈ cands, ∀ w ∈ c.keywords_used,
        (∃ e ∈ (applyPlan lines cands lim).applied_edits, w ∈ e.keywords_used)
      ∨ w ∈ (applyPlan lines cands lim).skipped_keywords)
  ∧ (applyPlan lines [] lim).applied_edits = []
  ∧ (applyPlan lines [] lim).skipped_keywords = [] := by
  refine ⟨?_, ?_, ?_⟩
  · intro c hc w hw
    by_cases hap : ∃ e ∈ (applyPlan lines cands lim).applied_edits, e.candidate = c
    · left
      obtain ⟨e, he, hec⟩ := hap
      exact ⟨e, he, by rw [(mem_applied_edits he).2.2, hec]; exact hw⟩
    · right
      push_neg at hap
      simp only [applyPlan] at hap ⊢
      rw [List.mem_dedup, List.mem_flatMap]
      refine ⟨c, List.mem_filter.mpr ⟨hc, ?_⟩, hw⟩
      rw [Bool.not_eq_true', List.any_eq_false]
      intro e hee
      simp only [decide_eq_true_eq]
      exact hap e hee
  · simp only [applyPlan]
    rw [List.filterMap_eq_nil_iff]
    intro p _
    rfl
  · rfl

/-- Witness for C4 (amended) at a concrete plan application. -/
theorem keyword_coverage_witness :
    (∃ e ∈ (applyPlan [lineA] [candA] defaultLimits).applied_edits,
        "X" ∈ e.keywords_used)
  ∨ "X" ∈ (applyPlan [lineA] [candA] defaultLimits).skipped_keywords :=
  (keyword_coverage [lineA] [candA] defaultLimits).1 candA (by decide) "X" (by decide)

/-! ## Anchor Locator lemmas -/

theorem bestRun_none {anchor : String} {thr : ℚ} :
    ∀ {l : List TextRun}, bestRun anchor thr l = none →
      ∀ r ∈ l, runScore anchor r < thr := by
  intro l
  induction l with
  | nil => intro _ r hr; simp at hr
  | cons a as ih =>
      intro h r hr
      cases hrest : bestRun anchor thr as with
      | none =>
          simp only [bestRun, hrest] at h
          by_cases hth : thr ≤ runScore anchor a
          · rw [if_pos hth] at h; exact Option.noConfusion h
          · rcases List.mem_cons.mp hr with he | hmem
            · subst he; exact lt_of_not_le hth
            · exact ih hrest r hmem
      | some p =>
          rcases p with ⟨br, bs⟩
          simp only [bestRun, hrest] at h
          split_ifs at h

theorem bestRun_some {anchor : String} {thr : ℚ} :
    ∀ {l : List TextRun} {br : TextRun} {bs : ℚ},
      bestRun anchor thr l = some (br, bs) →
      bs = runScore anchor br ∧ br ∈ l ∧ thr ≤ bs ∧
        ∀ r ∈ l, runScore anchor r ≤ bs ∧
          (runScore anchor r = bs → lexLe (br.page, br.pos) (r.page, r.pos)) := by
  intro l
  induction l with
  | nil => intro br bs h; simp [bestRun] at h
  | cons a as ih =>
      intro br bs h
      cases hrest : bestRun anchor thr as with
      | none =>
          simp only [bestRun, hrest] at h
          by_cases hth : thr ≤ runScore anchor a
          · rw [if_pos hth] at h
            have hba : br = a ∧ bs = runScore anchor a := by
              simp only [Option.some.injEq, Prod.mk.injEq] at h
              exact ⟨h.1.symm, h.2.symm⟩
            obtain ⟨rfl, rfl⟩ := hba
            refine ⟨rfl, List.mem_cons_self _ _, hth, ?_⟩
            intro r hr
            rcases List.mem_cons.mp hr with he | hmem
            · subst he; exact ⟨le_refl _, fun _ => lexLe_refl _⟩
            · have hlt := bestRun_none hrest r hmem
              exact ⟨le_trans (le_of_lt hlt) hth,
                fun he => absurd (he ▸ hth) (not_le_of_lt hlt)⟩
          · rw [if_neg hth] at h; exact Option.noConfusion h
      | some p =>
          rcases p with ⟨br', bs'⟩
          obtain ⟨hbs', hmem', hthr', hall'⟩ := ih hrest
          simp only [bestRun, hrest] at h
          by_cases hth : thr ≤ runScore anchor a
          · rw [if_pos hth] at h
            split_ifs at h with h1 h2
            · -- the head run scores strictly higher than the previous best
              have hba : br = a ∧ bs = runScore anchor a := by
                simp only [Option.some.injEq, Prod.mk.injEq] at h
                exact ⟨h.1.symm, h.2.symm⟩
              obtain ⟨rfl, rfl⟩ := hba
              refine ⟨rfl, List.mem_cons_self _ _, hth, ?_⟩
              intro r hr
              rcases List.mem_cons.mp hr with he | hmem
              · subst he; exact ⟨le_refl _, fun _ => lexLe_refl _⟩
              · have hle := (hall' r hmem).1
                have hlt := lt_of_le_of_lt hle h1
                exact ⟨le_of_lt hlt, fun he => absurd he (ne_of_lt hlt)⟩
            · -- equal score, head run is at an earlier page/position
              have hba : br = a ∧ bs = runScore anchor a := by
                simp only [Option.some.injEq, Prod.mk.injEq] at h
                exact ⟨h.1.symm, h.2.symm⟩
              obtain ⟨rfl, rfl⟩ := hba
              obtain ⟨heq, hlex⟩ := h2
              refine ⟨rfl, List.mem_cons_self _ _, hth, ?_⟩
              intro r hr
              rcases List.mem_cons.mp hr with he | hmem
              · subst he; exact ⟨le_refl _, fun _ => lexLe_refl _⟩
              · have hle := (hall' r hmem).1
                refine ⟨heq ▸ hle, fun he => ?_⟩
                exact lexLe_trans hlex ((hall' r hmem).2 (he.trans heq))
            · -- keep the previous best
              have hba : br = br' ∧ bs = bs' := by
                simp only [Option.some.injEq, Prod.mk.injEq] at h
                exact ⟨h.1.symm, h.2.symm⟩
              obtain ⟨rfl, rfl⟩ := hba
              refine ⟨hbs', List.mem_cons_of_mem _ hmem', hthr', ?_⟩
              intro r hr
              rcases List.mem_cons.mp hr with he | hmem
              · subst he
                refine ⟨le_of_not_lt h1, fun he => ?_⟩
                have hnlex : ¬ lexLe (r.page, r.pos) (br.page, br.pos) :=
                  fun hcon => h2 ⟨he, hcon⟩
                rcases lexLe_total (br.page, br.pos) (r.page, r.pos) with hok | hcon
                · exact hok
                · exact absurd hcon hnlex
              · exact hall' r hmem
          · rw [if_neg hth] at h
            have hba : br = br' ∧ bs = bs' := by
              simp only [Option.some.injEq, Prod.mk.injEq] at h
              exact ⟨h.1.symm, h.2.symm⟩
            obtain ⟨rfl, rfl⟩ := hba
            refine ⟨hbs', List.mem_cons_of_mem _ hmem', hthr', ?_⟩
            intro r hr
            rcases List.mem_cons.mp hr with he | hmem
            · subst he
              have hlt : runScore anchor r < thr := lt_of_not_le hth
              exact ⟨le_trans (le_of_lt hlt) hthr',
                fun he => absurd (he ▸ hthr') (not_le_of_lt hlt)⟩
            · exact hall' r hmem

/-- Claim C7: the Anchor Locator returns either a LocatedSpan whose
confidence is at least the threshold — the highest-scoring candidate run,
with score ties resolved towards earliest page/position — or nothing when no
candidate run clears the threshold; it never returns a span with confidence
below the threshold. -/
theorem locate_spec (anchor : String) (runs : List TextRun) (thr : ℚ) :
    (∀ span, locate anchor runs thr = some span →
        thr ≤ span.confidence
      ∧ (∀ r ∈ searchCandidates runs, runScore anchor r ≤ span.confidence)
      ∧ (∀ r ∈ searchCandidates runs, runScore anchor r = span.confidence →
            lexLe (span.page_index, span.pos) (r.page, r.pos)))
  ∧ (locate anchor runs thr = none →
      ∀ r ∈ searchCandidates runs, runScore anchor r < thr) := by
  constructor
  · intro span hspan
    simp only [locate, Option.map_eq_some'] at hspan
    obtain ⟨⟨br, bs⟩, hbest, hspan'⟩ := hspan
    obtain ⟨_, _, hthr, hall⟩ := bestRun_some hbest
    subst hspan'
    exact ⟨hthr, fun r hr => (hall r hr).1, fun r hr he => (hall r hr).2 he⟩
  · intro hnone
    simp only [locate, Option.map_eq_none'] at hnone
    exact bestRun_none hnone


/-- Witness for C7: an exact-substring match is located with confidence 1,
which is at least the default threshold. -/
theorem locate_spec_witness :
    mkRat 1 2 ≤ LocatedSpan.confidence
      ⟨0, 0, [⟨0, 0, 1, 1⟩], 1, "Built dashboards using Tableau"⟩ :=
  ((locate_spec "Tableau" [sampleRun] (mkRat 1 2)).1
      ⟨0, 0, [⟨0, 0, 1, 1⟩], 1, "Built dashboards using Tableau"⟩ (by decide)).1

/-- Claim C8: the Annotation Placer never modifies the underlying rendered
document's content — stripping all overlay marks from the AnnotationResult's
document reproduces the original rendered document exactly, page content
included. -/
theorem annotation_round_trip (doc : RenderedDoc) (edits : List AppliedEdit)
    (thr : ℚ) :
    stripOverlays (annotateDoc doc edits thr).doc = doc
  ∧ (stripOverlays (annotateDoc doc edits thr).doc).pages = doc.pages :=
  ⟨rfl, rfl⟩


/-- Counterexample for C9 as stated: on the spec's own §4.1 word rule,
tokenizing the insertion ", and Power BI" on whitespace yields 4 tokens, not
2, so under the default limit of 2 words the Constraint Validator rejects
the Scenario A candidate instead of accepting it. -/
theorem scenarioA_counterexample :
    (validate scenarioALine scenarioACand defaultLimits).accepted = false
  ∧ (validate scenarioALine scenarioACand defaultLimits).word_delta = 4 := by
  decide

/-- Claim C9 (amended): for Scenario A, char_delta is 14 and within the
25-character limit, but tokenizing the insertion on whitespace yields 4 > 2
tokens, so the validator rejects with exactly WORD_LIMIT_EXCEEDED; the Tail
placement of the candidate does produce
"Built dashboards using Tableau, and Power BI". -/
theorem scenarioA_amended :
    (validate scenarioALine scenarioACand defaultLimits).char_delta = 14
  ∧ (validate scenarioALine scenarioACand defaultLimits).char_delta
      ≤ defaultLimits.max_chars
  ∧ (validate scenarioALine scenarioACand defaultLimits).word_delta = 4
  ∧ defaultLimits.max_words
      < (validate scenarioALine scenarioACand defaultLimits).word_delta
  ∧ (validate scenarioALine scenarioACand defaultLimits).reasons
      = [RejectCode.WORD_LIMIT_EXCEEDED]
  ∧ (validate scenarioALine scenarioACand defaultLimits).accepted = false
  ∧ placeEdit scenarioALine scenarioACand
      = "Built dashboards using Tableau, and Power BI" := by
  decide

/-- Claim C10: the client-side diff function `createDiff` in PreviewPanel.tsx
loses no line: the subsequence of output entries tagged `unchanged` or
`removed`, in order, equals the original string split on newlines; the
subsequence tagged `unchanged` or `added`, in order, equals the updated
string split on newlines; and when the two inputs are equal every entry is
tagged `unchanged`. -/
theorem createDiff_lossless (original updated : String) :
    ((createDiff original updated).filter fromOriginal).map DiffEntry.line
        = splitNl original
  ∧ ((createDiff original updated).filter fromUpdated).map DiffEntry.line
        = splitNl updated
  ∧ (original = updated →
      ∀ e ∈ createDiff original updated, e.tag = DiffTag.unchanged) := by
  refine ⟨createDiffAux_original _ _ _ _, createDiffAux_updated _ _ _ _, ?_⟩
  intro h e he
  subst h
  exact createDiffAux_self _ _ _ e he

/-- Witness for C10 at a concrete input pair. -/
theorem createDiff_lossless_witness :
    DiffEntry.tag ⟨DiffTag.unchanged, "Skills", 1⟩ = DiffTag.unchanged :=
  (createDiff_lossless "Skills" "Skills").2.2 rfl
    ⟨DiffTag.unchanged, "Skills", 1⟩
    (by simp [createDiff, splitNl, splitNlAux, createDiffAux, String.toList])

end Spec2Proof
